import Mathlib

/-!
Verification of the Summer Breeze CLI (summerbreeze.py) against its
natural-language specification.  Python strings are modelled as lists of
characters; the external deployer subprocess and the user's keyboard are
modelled as explicit oracle parameters.  Only ASCII text occurs in the
claims, so character case-mapping is modelled by `Char.toLower`.
-/

namespace SummerBreeze

/-- Python strings, modelled as lists of characters. -/
abbrev Str := List Char

/-- Coercion from Lean string literals to the model's string type. -/
def strL (s : String) : Str := s.toList

/-- Characters stripped by Python's `str.strip()` (ASCII whitespace). -/
def pyIsSpace (c : Char) : Bool :=
  c = ' ' || c = '\t' || c = '\n' || c = '\r' || c = '\x0b' || c = '\x0c'

/-- Python `str.strip()`: remove leading and trailing whitespace. -/
def pyStrip (s : Str) : Str :=
  ((s.dropWhile pyIsSpace).reverse.dropWhile pyIsSpace).reverse

/-- Python `str.lower()` (ASCII range, which covers all claim inputs). -/
def pyLower (s : Str) : Str := s.map Char.toLower

/-- Python `str.startswith(pre)`. -/
def strStartsWith (pre s : Str) : Bool :=
  decide (s.take pre.length = pre)

/-- Python `str.endswith(suf)`. -/
def strEndsWith (suf s : Str) : Bool :=
  decide (suf.length ≤ s.length) && decide (s.drop (s.length - suf.length) = suf)

/-- Python `s.split(sep)` for a one-character separator, keeping empty
fields, as `stdout.strip().split("\n")` does in the source. -/
def splitOnChar (sep : Char) : Str → List Str
  | [] => [[]]
  | c :: rest =>
    if c = sep then [] :: splitOnChar sep rest
    else
      match splitOnChar sep rest with
      | [] => [[c]]
      | s :: ss => (c :: s) :: ss

/-- Python `s.split(sep, 1)` for a one-character separator: `none` when the
separator does not occur, otherwise the parts before and after its first
occurrence. -/
def splitOnce (sep : Char) : Str → Option (Str × Str)
  | [] => none
  | c :: rest =>
    if c = sep then some ([], rest)
    else
      match splitOnce sep rest with
      | none => none
      | some (a, b) => some (c :: a, b)

/-- Helper for Python's no-argument `str.split()`: accumulates the current
token (reversed) while scanning. -/
def wsSplitAux : Str → Str → List Str
  | [], acc => if acc.isEmpty then [] else [acc.reverse]
  | c :: rest, acc =>
    if pyIsSpace c then
      if acc.isEmpty then wsSplitAux rest []
      else acc.reverse :: wsSplitAux rest []
    else wsSplitAux rest (c :: acc)

/-- Python `str.split()` with no argument: whitespace-separated tokens, no
empty tokens. -/
def wsSplit (s : Str) : List Str := wsSplitAux s []

/-- The ROM extension set `ROM_EXTENSIONS = {".z64", ".n64", ".v64"}` of the
source.  Python iterates a set in unspecified order; since all three
extensions have length 4, at most one can match a given suffix, so a fixed
list order is an equivalent model. -/
def ROM_EXTENSIONS : List Str := [strL ".z64", strL ".n64", strL ".v64"]

/-- The extension-stripping loop of `normalize_rom_name`: the first extension
`ext` with `name.lower().endswith(ext)` is removed (`name[:-len(ext)]`) and
the loop breaks. -/
def stripRomExtAux : List Str → Str → Str
  | [], name => name
  | ext :: rest, name =>
    if strEndsWith ext (pyLower name) then name.take (name.length - ext.length)
    else stripRomExtAux rest name

/-- Model of `normalize_rom_name` (summerbreeze.py lines 126-133): strip one
recognized extension case-insensitively, then `name.lower().strip()`. -/
def normalize_rom_name (name : Str) : Str :=
  pyStrip (pyLower (stripRomExtAux ROM_EXTENSIONS name))

/-- One parsed record of the SD-card listing: the dict
`{"name": …, "type": …, "size": …, "path": …}` built by
`list_sd_card_files`. -/
structure SdEntry where
  name : Str
  ftype : Str
  size : Str
  path : Str
deriving DecidableEq, Repr

/-- Parsing of one line of the loop body of `list_sd_card_files`
(summerbreeze.py lines 67-92): skip blank lines and lines without a pipe,
split at the first pipe into trimmed metadata and name, classify by whether
the metadata starts with "d", take the second whitespace token as the size,
prefix "/" to the name for the path unless already present. -/
def parseLine (line : Str) : Option SdEntry :=
  if pyStrip line = [] then none
  else if '|' ∉ line then none
  else
    match splitOnce '|' line with
    | none => none
    | some (mRaw, nRaw) =>
      let m := pyStrip mRaw
      let n := pyStrip nRaw
      let ftype := if strStartsWith (strL "d") m then strL "dir" else strL "file"
      let size :=
        match wsSplit m with
        | _ :: s :: _ => s
        | _ => []
      some { name := n, ftype := ftype, size := size,
             path := if strStartsWith (strL "/") n then n else '/' :: n }

/-- Model of `list_sd_card_files` given the deployer's exit code and captured
stdout (summerbreeze.py lines 55-93): a non-zero exit code yields `[]`,
otherwise each line of `stdout.strip().split("\n")` is parsed by the loop
body. -/
def list_sd_card_files (code : Int) (stdout : Str) : List SdEntry :=
  if code ≠ 0 then []
  else (splitOnChar '\n' (pyStrip stdout)).filterMap parseLine

/-- Restatement of the listing-record description in the claim's own words:
a line containing a pipe is split at the first pipe into a trimmed metadata
field and a trimmed name; the kind is directory exactly when the metadata
field's first character is 'd'; the size is the second whitespace-separated
token of the metadata when present and empty otherwise; the path is the name
if it starts with '/' and '/' prefixed to it otherwise; other lines produce
no record. -/
def parseLine_claim (line : Str) : Option SdEntry :=
  if '|' ∈ line then
    let m := pyStrip (line.takeWhile (fun x => x ≠ '|'))
    let n := pyStrip ((line.dropWhile (fun x => x ≠ '|')).tail)
    some { name := n
         , ftype := if m.head? = some 'd' then strL "dir" else strL "file"
         , size := (wsSplit m).getD 1 []
         , path := if n.head? = some '/' then n else '/' :: n }
  else none

/-- Observable outcome of one run of `cmd_compare`: the returned list, the
two partitions printed by the loop, and whether the remote enumeration
(`get_all_sd_roms`) was performed. -/
structure CompareResult where
  result : List Str
  onCart : List Str
  missing : List Str
  scanned : Bool
deriving DecidableEq, Repr

/-- The partition loop of `cmd_compare` (summerbreeze.py lines 331-338):
each local ROM goes to `missing` when its normalized name is not in the set
of normalized remote names, and to `on_cart` otherwise, preserving order. -/
def comparePartition (sdNorm : List Str) : List Str → List Str × List Str
  | [] => ([], [])
  | r :: rest =>
    let p := comparePartition sdNorm rest
    if normalize_rom_name r ∈ sdNorm then (p.1, r :: p.2)
    else (r :: p.1, p.2)

/-- Model of `cmd_compare` (summerbreeze.py lines 303-354) over its inputs:
the local ROM names, whether `is_sd_card_accessible()` holds, and the remote
ROM names that `get_all_sd_roms()` would return.  With no local ROMs it
returns `[]`; with an inaccessible SD card it returns every local ROM without
scanning; otherwise it partitions by normalized-name membership and returns
the missing ones. -/
def cmd_compare_run (localRoms : List Str) (sdAccessible : Bool)
    (sdRomNames : List Str) : CompareResult :=
  if localRoms = [] then ⟨[], [], [], false⟩
  else if !sdAccessible then ⟨localRoms, [], localRoms, false⟩
  else
    let sdNorm := sdRomNames.map normalize_rom_name
    let p := comparePartition sdNorm localRoms
    ⟨p.1, p.2, p.1, true⟩

/-- Possible outcomes of the `subprocess.run` call inside `run_sc64_command`:
the subprocess completes with an exit code and captured output; or it raises
`FileNotFoundError` because the executable cannot be located; or it raises
some other start-failure exception (e.g. `PermissionError` for a deployer
file that exists but is not executable), which the source's
`except FileNotFoundError` does not catch. -/
inductive SubprocessOutcome where
  | completed (exitCode : Int) (stdout : Str) (stderr : Str)
  | fileNotFound
  | startError (msg : Str)
deriving DecidableEq, Repr

/-- Model of `run_sc64_command` (summerbreeze.py lines 32-39): the completed
subprocess result is returned; `FileNotFoundError` is caught and mapped to
the sentinel `(-1, "", explanatory message)`; any other exception raised by
`subprocess.run` is not caught and propagates to the caller, modelled by the
`Except.error` result. -/
def run_sc64_command (deployerPath : Str) (args : List Str)
    (outcome : SubprocessOutcome) : Except Str (Int × Str × Str) :=
  match args, outcome with
  | _, .completed c o e => .ok (c, o, e)
  | _, .fileNotFound =>
    .ok (-1, [], strL "Error: sc64deployer not found at " ++ deployerPath)
  | _, .startError msg => .error msg

/-- Whether a modelled call ends with an exception reaching its caller. -/
def raisesToCaller (r : Except Str (Int × Str × Str)) : Bool :=
  match r with
  | .error _ => true
  | .ok _ => false

/-- Digit-string evaluation for Python `int()` over ASCII digits. -/
def digitsValAux : Str → Nat → Option Nat
  | [], acc => some acc
  | c :: rest, acc =>
    if c.isDigit then digitsValAux rest (acc * 10 + (c.toNat - 48)) else none

/-- Model of Python `int(s)` on decimal text: optional surrounding
whitespace, optional sign, then one or more ASCII digits; `none` models
`ValueError`.  (Underscore digit grouping is accepted by CPython but is not
used by any claim input and is not modelled.) -/
def pyInt (s : Str) : Option Int :=
  match pyStrip s with
  | [] => none
  | '+' :: rest =>
    if rest = [] then none else (digitsValAux rest 0).map Int.ofNat
  | '-' :: rest =>
    if rest = [] then none else (digitsValAux rest 0).map (fun n => -(n : Int))
  | t => (digitsValAux t 0).map Int.ofNat

/-- Insertion of an integer into a strictly increasing list, keeping it
strictly increasing. -/
def insertSortedDedup (x : Int) : List Int → List Int
  | [] => [x]
  | y :: ys =>
    if x < y then x :: y :: ys
    else if x = y then y :: ys
    else y :: insertSortedDedup x ys

/-- Model of Python `sorted(set(l))` for integers: the strictly increasing
enumeration of the distinct elements of `l`. -/
def sortedDedup (l : List Int) : List Int := l.foldr insertSortedDedup []

/-- Model of one iteration of `get_multi_choice` (summerbreeze.py lines
186-208) on one input line: `some sel` when the loop body returns the
selection `sel`, and `none` when a `ValueError` makes it re-prompt.  The
line is stripped and lowered; "0" cancels, "all" expands to the full range,
otherwise the comma-separated tokens are parsed as integers, the in-range
ones kept (out-of-range ones reported and skipped), and `sorted(set(...))`
returned. -/
def get_multi_choice_line (maxVal : Nat) (line : Str) : Option (List Int) :=
  let raw := pyLower (pyStrip line)
  if raw = strL "0" then some []
  else if raw = strL "all" then
    some ((List.range maxVal).map (fun i => (i : Int) + 1))
  else
    match (splitOnChar ',' raw).mapM (fun p => pyInt (pyStrip p)) with
    | none => none
    | some vals =>
      some (sortedDedup (vals.filter
        (fun v => decide (1 ≤ v) && decide (v ≤ (maxVal : Int)))))

/-- A local filesystem subtree under `LOCAL_ROMS_DIR`: the model keeps only
the entry names, which is all `list_local_roms` reads. -/
inductive FsNode where
  | file (name : Str)
  | dir (name : Str) (children : List FsNode)

mutual

/-- Files found below one node by `LOCAL_ROMS_DIR.rglob("*")`, restricted by
`is_file()` to plain files, in depth-first order. -/
def collectFiles : FsNode → List Str
  | .file n => [n]
  | .dir _ cs => collectFilesList cs

/-- Files found below a list of sibling nodes, in order. -/
def collectFilesList : List FsNode → List Str
  | [] => []
  | c :: cs => collectFiles c ++ collectFilesList cs

end

/-- Index of the last occurrence of `c` in `s`, as Python `str.rfind` when it
succeeds. -/
def lastIdxOf (c : Char) : Str → Option Nat
  | [] => none
  | x :: xs =>
    match lastIdxOf c xs with
    | some i => some (i + 1)
    | none => if x = c then some 0 else none

/-- Python `pathlib` `.suffix` of a file name: the part from the last dot,
unless that dot is the first or the last character. -/
def pySuffix (name : Str) : Str :=
  match lastIdxOf '.' name with
  | none => []
  | some i => if 0 < i ∧ i < name.length - 1 then name.drop i else []

/-- The filter of `list_local_roms`:
`file.suffix.lower() in ROM_EXTENSIONS`. -/
def isRomFile (name : Str) : Bool :=
  decide (pyLower (pySuffix name) ∈ ROM_EXTENSIONS)

/-- Python string comparison (lexicographic by code point), as used by
`sorted(..., key=lambda x: x.name.lower())`. -/
def strLe : Str → Str → Bool
  | [], _ => true
  | _ :: _, [] => false
  | a :: as, b :: bs =>
    if a.toNat = b.toNat then strLe as bs else decide (a.toNat < b.toNat)

/-- The sort key order of `list_local_roms`: case-insensitive comparison of
file names. -/
def romLe (a b : Str) : Prop := strLe (pyLower a) (pyLower b) = true

instance : DecidableRel romLe := fun a b => by unfold romLe; infer_instance

/-- Model of `list_local_roms` (summerbreeze.py lines 114-123): `none` models
a missing `LOCAL_ROMS_DIR` (which yields `[]`); otherwise every file in the
tree whose suffix, lowercased, is a ROM extension, sorted case-insensitively
by filename (Python's stable `sorted` modelled by stable insertion sort). -/
def list_local_roms (root : Option (List FsNode)) : List Str :=
  match root with
  | none => []
  | some cs => List.insertionSort romLe ((collectFilesList cs).filter isRomFile)

/-- Observable events of one upload batch: one attempt per selected ROM with
its success flag, and the final "Done! Uploaded X/Y" summary when printed. -/
inductive UpEvent where
  | attempt (name : Str) (ok : Bool)
  | summary (succeeded : Nat) (total : Nat)
deriving DecidableEq, Repr

/-- The upload loop shared in shape by `cmd_upload` (lines 399-407) and
`cmd_quick_upload` (lines 438-441): every selected 1-based index is attempted
in order, `ok` giving the result of `upload_rom_to_sd` for each index, and
the success count is accumulated. -/
def uploadLoop (roms : List Str) (ok : Nat → Bool) :
    List Nat → Nat → List UpEvent × Nat
  | [], cnt => ([], cnt)
  | idx :: rest, cnt =>
    let r := ok idx
    let next := uploadLoop roms ok rest (if r then cnt + 1 else cnt)
    (UpEvent.attempt (roms.getD (idx - 1) []) r :: next.1, next.2)

/-- Model of the post-selection phase of `cmd_upload` (lines 399-407):
attempt every choice, then print the success-count-of-total summary. -/
def cmd_upload_batch (missing : List Str) (choices : List Nat)
    (ok : Nat → Bool) : List UpEvent :=
  let r := uploadLoop missing ok choices 0
  r.1 ++ [UpEvent.summary r.2 choices.length]

/-- Model of the post-selection phase of `cmd_quick_upload` (lines 438-441):
attempt every choice; the loop tracks no success count and prints no
summary. -/
def cmd_quick_upload_batch (localRoms : List Str) (choices : List Nat)
    (ok : Nat → Bool) : List UpEvent :=
  (uploadLoop localRoms ok choices 0).1

/-- Whether a batch trace contains a final-summary event. -/
def hasSummary (evs : List UpEvent) : Bool :=
  evs.any (fun e => match e with | .summary _ _ => true | _ => false)

/-- The browser state of `cmd_browse_sd` (lines 757-758): current path and
back-history.  Python appends to and pops from the end of its history list;
the model keeps the most recently pushed path at the head. -/
structure BrowseState where
  currentPath : Str
  history : List Str
deriving DecidableEq, Repr

/-- Python `str.rstrip(c)` for a single character. -/
def pyRstripChar (c : Char) (s : Str) : Str :=
  (s.reverse.dropWhile (fun x => x = c)).reverse

/-- Python `s.rsplit(c, 1)[0]`: everything before the last occurrence of `c`,
or `s` itself when `c` does not occur. -/
def rsplitFirst (c : Char) (s : Str) : Str :=
  if c ∈ s then ((s.reverse.dropWhile (fun x => x ≠ c)).tail).reverse else s

/-- Directory-enter transition of `cmd_browse_sd` (lines 827-833): push the
current path onto the history and descend into the chosen directory (the
entry's absolute path from the root, the joined path otherwise). -/
def browseEnterDir (s : BrowseState) (item : SdEntry) : BrowseState :=
  { currentPath :=
      if s.currentPath = strL "/" then item.path
      else pyRstripChar '/' s.currentPath ++ '/' :: item.name,
    history := s.currentPath :: s.history }

/-- Parent-navigate transition of `cmd_browse_sd` (lines 812-820): pop the
history when non-empty; otherwise truncate
`current_path.rstrip("/").rsplit("/", 1)[0]`, falling back to "/" when that
is empty. -/
def browseGoParent (s : BrowseState) : BrowseState :=
  match s.history with
  | h :: t => { currentPath := h, history := t }
  | [] =>
    let base := rsplitFirst '/' (pyRstripChar '/' s.currentPath)
    { currentPath := if base = [] then strL "/" else base, history := [] }

/-- The claim's wording of the history-empty fallback: truncate the path at
the last '/' (computed here from the left, via the last slash index), with
"/" when no deeper component remains. -/
def parentByTruncate (p : Str) : Str :=
  let base := pyRstripChar '/' p
  let cut :=
    match lastIdxOf '/' base with
    | some i => base.take i
    | none => base
  if cut = [] then strL "/" else cut

/-- The two deployer file-transfer steps of `cmd_update_menu`, with their
results, in execution order. -/
inductive MenuEvent where
  | backup (ok : Bool)
  | upload (ok : Bool)
deriving DecidableEq, Repr

/-- Environment of one `cmd_update_menu` run: the device/SD-card guard
results, the local menu versions, the user's input lines in order, and the
results the deployer would give to the backup download and the menu
upload. -/
structure MenuEnv where
  deviceConnected : Bool
  sdAccessible : Bool
  menuVersions : List Str
  inputs : List Str
  backupOk : Bool
  uploadOk : Bool

/-- The paginated menu-version selection loop of `cmd_update_menu`
(summerbreeze.py lines 518-568), consuming one input line per iteration with
a page size of 9: "0" cancels, "p"/"n" page when possible, an in-range
number selects, anything else re-prompts.  Returns the selected menu and the
remaining input lines; `none` models cancel (or exhausted input). -/
def selectMenuLoop (menuVersions : List Str) (totalPages : Nat) :
    List Str → Nat → Option (Str × List Str)
  | [], _ => none
  | inp :: rest, currentPage =>
    let pageItems := (menuVersions.drop (currentPage * 9)).take 9
    let u := pyLower (pyStrip inp)
    if u = strL "0" then none
    else if u = strL "p" ∧ currentPage > 0 then
      selectMenuLoop menuVersions totalPages rest (currentPage - 1)
    else if u = strL "n" ∧ currentPage < totalPages - 1 then
      selectMenuLoop menuVersions totalPages rest (currentPage + 1)
    else
      match pyInt u with
      | none => selectMenuLoop menuVersions totalPages rest currentPage
      | some choice =>
        if 1 ≤ choice ∧ choice ≤ (pageItems.length : Int) then
          some (pageItems.getD (choice.toNat - 1) [], rest)
        else selectMenuLoop menuVersions totalPages rest currentPage

/-- Model of `cmd_update_menu` (summerbreeze.py lines 498-591) as the trace
of its backup/upload steps: guards and cancellations yield the empty trace;
after selection and a "y" confirmation, the backup runs, a failed backup
aborts before any upload, and only a successful backup is followed by the
upload attempt. -/
def cmd_update_menu_run (env : MenuEnv) : List MenuEvent :=
  if !env.deviceConnected then []
  else if !env.sdAccessible then []
  else if env.menuVersions = [] then []
  else
    match selectMenuLoop env.menuVersions
        ((env.menuVersions.length + 9 - 1) / 9) env.inputs 0 with
    | none => []
    | some (_, rest) =>
      match rest with
      | [] => []
      | confirm :: _ =>
        if pyLower (pyStrip confirm) ≠ strL "y" then []
        else if !env.backupOk then [MenuEvent.backup false]
        else [MenuEvent.backup true, MenuEvent.upload env.uploadOk]

lemma strEndsWith_eq_drop {suf s : Str} (h : strEndsWith suf s = true) :
    s.drop (s.length - suf.length) = suf := by
  simp only [strEndsWith, Bool.and_eq_true, decide_eq_true_eq] at h
  exact h.2

lemma strEndsWith_unique {e₁ e₂ s : Str} (h₁ : strEndsWith e₁ s = true)
    (h₂ : strEndsWith e₂ s = true) (hl : e₁.length = e₂.length) : e₁ = e₂ := by
  have d₁ := strEndsWith_eq_drop h₁
  have d₂ := strEndsWith_eq_drop h₂
  rw [← d₁, ← d₂, hl]

lemma rom_ext_length : ∀ ext ∈ ROM_EXTENSIONS, ext.length = 4 := by
  intro ext h
  simp only [ROM_EXTENSIONS, strL, List.mem_cons, List.not_mem_nil, or_false] at h
  rcases h with h | h | h <;> subst h <;> rfl

/-- Claim C3: `normalize_rom_name` strips exactly one trailing recognized ROM
extension from {.z64, .n64, .v64}, matched case-insensitively, then lowercases
and trims the result; a name with no recognized trailing extension is only
lowercased and trimmed; the three concrete examples of the claim hold. -/
theorem C3_normalize_rom_name :
    (∀ name ext, ext ∈ ROM_EXTENSIONS → strEndsWith ext (pyLower name) = true →
      normalize_rom_name name =
        pyStrip (pyLower (name.take (name.length - ext.length)))) ∧
    (∀ name, (∀ ext ∈ ROM_EXTENSIONS, strEndsWith ext (pyLower name) = false) →
      normalize_rom_name name = pyStrip (pyLower name)) ∧
    normalize_rom_name (strL "Game.Z64") = strL "game" ∧
    normalize_rom_name (strL "  Game  .z64") = strL "game" ∧
    normalize_rom_name (strL "game") = strL "game" := by
  refine ⟨?_, ?_, by decide, by decide, by decide⟩
  · intro name ext hmem hends
    have hlen : ext.length = 4 := rom_ext_length ext hmem
    have key : ∀ e, e ∈ ROM_EXTENSIONS →
        (strEndsWith e (pyLower name) = true → e = ext) := by
      intro e he hc
      exact strEndsWith_unique hc hends ((rom_ext_length e he).trans hlen.symm)
    unfold normalize_rom_name
    congr 1
    congr 1
    simp only [ROM_EXTENSIONS, List.mem_cons, List.not_mem_nil, or_false] at hmem
    simp only [ROM_EXTENSIONS, stripRomExtAux]
    rcases hmem with h | h | h
    · subst h; simp [hends]
    · subst h
      by_cases hz : strEndsWith (strL ".z64") (pyLower name) = true
      · have := key (strL ".z64") (by simp [ROM_EXTENSIONS]) hz
        simp_all
      · simp only [Bool.not_eq_true] at hz
        simp [hz, hends]
    · subst h
      by_cases hz : strEndsWith (strL ".z64") (pyLower name) = true
      · have := key (strL ".z64") (by simp [ROM_EXTENSIONS]) hz
        simp_all
      · by_cases hn : strEndsWith (strL ".n64") (pyLower name) = true
        · have := key (strL ".n64") (by simp [ROM_EXTENSIONS]) hn
          simp_all
        · simp only [Bool.not_eq_true] at hz hn
          simp [hz, hn, hends]
  · intro name hnone
    unfold normalize_rom_name
    congr 1
    congr 1
    simp only [ROM_EXTENSIONS, stripRomExtAux] at *
    have hz := hnone (strL ".z64") (by simp)
    have hn := hnone (strL ".n64") (by simp)
    have hv := hnone (strL ".v64") (by simp)
    simp [hz, hn, hv]

/-- Witness for C3 at the concrete name "Game.Z64" and extension ".z64". -/
theorem C3_normalize_rom_name_witness :
    normalize_rom_name (strL "Game.Z64") =
      pyStrip (pyLower ((strL "Game.Z64").take
        ((strL "Game.Z64").length - (strL ".z64").length))) :=
  C3_normalize_rom_name.1 (strL "Game.Z64") (strL ".z64") (by decide) (by decide)

lemma splitOnce_eq_none {c : Char} : ∀ {s : Str}, c ∉ s → splitOnce c s = none
  | [], _ => rfl
  | x :: xs, h => by
    have hx : ¬x = c := fun e => h (e ▸ List.mem_cons_self x xs)
    have hxs : c ∉ xs := fun m => h (List.mem_cons_of_mem x m)
    simp [splitOnce, hx, splitOnce_eq_none hxs]

lemma splitOnce_eq_some {c : Char} : ∀ {s : Str}, c ∈ s →
    splitOnce c s =
      some (s.takeWhile (fun x => x ≠ c), (s.dropWhile (fun x => x ≠ c)).tail)
  | [], h => absurd h (List.not_mem_nil c)
  | x :: xs, h => by
    by_cases hx : x = c
    · subst hx
      simp [splitOnce, List.takeWhile, List.dropWhile]
    · have hxs : c ∈ xs := by
        rcases List.mem_cons.mp h with h' | h'
        · exact absurd h'.symm hx
        · exact h'
      simp [splitOnce, hx, splitOnce_eq_some hxs, List.takeWhile, List.dropWhile]

lemma mem_dropWhile_of_not {p : Char → Bool} {c : Char} (hc : p c = false) :
    ∀ {s : Str}, c ∈ s → c ∈ s.dropWhile p
  | [], h => absurd h (List.not_mem_nil c)
  | x :: xs, h => by
    by_cases hx : p x = true
    · have hxc : c ≠ x := fun e => by rw [e, hx] at hc; exact Bool.noConfusion hc
      have hxs : c ∈ xs := by
        rcases List.mem_cons.mp h with h' | h'
        · exact absurd h' hxc
        · exact h'
      simpa [List.dropWhile, hx] using mem_dropWhile_of_not hc hxs
    · simp only [Bool.not_eq_true] at hx
      simpa [List.dropWhile, hx] using h

lemma mem_pyStrip {c : Char} (hc : pyIsSpace c = false) {s : Str} (h : c ∈ s) :
    c ∈ pyStrip s := by
  unfold pyStrip
  rw [List.mem_reverse]
  exact mem_dropWhile_of_not hc (by rw [List.mem_reverse]; exact mem_dropWhile_of_not hc h)

lemma pyStrip_ne_nil_of_pipe {s : Str} (h : ('|' : Char) ∈ s) : pyStrip s ≠ [] := by
  intro he
  have := mem_pyStrip (c := '|') (by decide) h
  rw [he] at this
  exact List.not_mem_nil _ this

lemma strStartsWith_single (c : Char) (s : Str) :
    strStartsWith [c] s = decide (s.head? = some c) := by
  cases s with
  | nil => simp [strStartsWith]
  | cons x xs => simp [strStartsWith, List.take, eq_comm]

lemma parseLine_eq_claim (line : Str) : parseLine line = parseLine_claim line := by
  by_cases hp : ('|' : Char) ∈ line
  · have hs : pyStrip line ≠ [] := pyStrip_ne_nil_of_pipe hp
    rw [parseLine, parseLine_claim, if_neg hs, if_pos hp, if_neg (by simpa using hp),
      splitOnce_eq_some hp]
    have hd : strL "d" = ['d'] := rfl
    have hsl : strL "/" = ['/'] := rfl
    simp only [hd, hsl, strStartsWith_single, decide_eq_true_eq]
    rcases hws : wsSplit (pyStrip (line.takeWhile (fun x => x ≠ '|'))) with
      _ | ⟨a, _ | ⟨b, rest⟩⟩ <;> simp [hws]
  · rw [parseLine, parseLine_claim, if_neg hp]
    by_cases hb : pyStrip line = []
    · rw [if_pos hb]
    · rw [if_neg hb, if_pos (by simpa using hp)]

/-- Claim C2: with a zero exit code, the listing parser returns one record per
line containing a pipe, with the fields described by `parseLine_claim`
(first-pipe split, trimmed metadata and name, kind directory exactly when the
metadata's first character is 'd', size the second whitespace token when
present, path the name with '/' prefixed unless already absolute); blank
lines and lines without a pipe produce no record; the two concrete example
lines parse as the claim states. -/
theorem C2_list_sd_card_files :
    (∀ line : Str, parseLine line = parseLine_claim line) ∧
    (∀ stdout : Str, list_sd_card_files 0 stdout =
      (splitOnChar '\n' (pyStrip stdout)).filterMap parseLine_claim) ∧
    parseLine (strL "f 32M 2025-12-01 19:03:12 | file.z64") =
      some ⟨strL "file.z64", strL "file", strL "32M", strL "/file.z64"⟩ ∧
    parseLine (strL "d ---- 2024-06-01 12:00:00 | /menu") =
      some ⟨strL "/menu", strL "dir", strL "----", strL "/menu"⟩ ∧
    parseLine (strL "   ") = none ∧
    parseLine (strL "f 32M no pipe here") = none := by
  refine ⟨parseLine_eq_claim, ?_, by decide, by decide, by decide, by decide⟩
  intro stdout
  rw [list_sd_card_files, if_neg (by simp)]
  exact List.filterMap_congr (fun line _ => parseLine_eq_claim line)

lemma comparePartition_eq (sdNorm : List Str) : ∀ l : List Str,
    comparePartition sdNorm l =
      (l.filter (fun r => decide (normalize_rom_name r ∉ sdNorm)),
       l.filter (fun r => decide (normalize_rom_name r ∈ sdNorm)))
  | [] => rfl
  | r :: rest => by
    by_cases h : normalize_rom_name r ∈ sdNorm <;>
      simp [comparePartition, comparePartition_eq sdNorm rest, h, List.filter]

/-- Claim C4: with an accessible SD card, `cmd_compare` partitions the local
ROMs into "already on cart" and "missing on cart" by membership of the
normalized local name in the set of normalized remote names, and returns the
missing ones; the claim's concrete example holds. -/
theorem C4_cmd_compare_partition :
    (∀ localRoms sdRomNames : List Str,
      (cmd_compare_run localRoms true sdRomNames).onCart =
        localRoms.filter (fun r =>
          decide (normalize_rom_name r ∈ sdRomNames.map normalize_rom_name)) ∧
      (cmd_compare_run localRoms true sdRomNames).missing =
        localRoms.filter (fun r =>
          decide (normalize_rom_name r ∉ sdRomNames.map normalize_rom_name)) ∧
      (cmd_compare_run localRoms true sdRomNames).result =
        (cmd_compare_run localRoms true sdRomNames).missing) ∧
    (cmd_compare_run [strL "A.z64", strL "B.n64"] true [strL "a"]).missing =
      [strL "B.n64"] ∧
    (cmd_compare_run [strL "A.z64", strL "B.n64"] true [strL "a"]).onCart =
      [strL "A.z64"] := by
  refine ⟨?_, by decide, by decide⟩
  intro localRoms sdRomNames
  by_cases h : localRoms = []
  · subst h
    refine ⟨rfl, rfl, rfl⟩
  · simp [cmd_compare_run, h, comparePartition_eq]

/-- Claim C10: when the SD card is not accessible and the local ROM list is
non-empty, `cmd_compare` returns the entire local list, treats every local
ROM as missing, and performs no remote enumeration. -/
theorem C10_cmd_compare_inaccessible :
    ∀ localRoms sdRomNames : List Str, localRoms ≠ [] →
      (cmd_compare_run localRoms false sdRomNames).result = localRoms ∧
      (cmd_compare_run localRoms false sdRomNames).missing = localRoms ∧
      (cmd_compare_run localRoms false sdRomNames).scanned = false := by
  intro localRoms sdRomNames h
  simp only [cmd_compare_run, if_neg h]
  exact ⟨rfl, rfl, rfl⟩

/-- Witness for C10 with one concrete local ROM. -/
theorem C10_cmd_compare_inaccessible_witness :
    (cmd_compare_run [strL "A.z64"] false []).result = [strL "A.z64"] ∧
    (cmd_compare_run [strL "A.z64"] false []).missing = [strL "A.z64"] ∧
    (cmd_compare_run [strL "A.z64"] false []).scanned = false :=
  C10_cmd_compare_inaccessible [strL "A.z64"] [] (by decide)

/-- Counterexample to claim C5 as stated: a deployer executable that exists
but cannot be started makes `subprocess.run` raise an exception (e.g.
`PermissionError`) that the source's `except FileNotFoundError` does not
catch, so at this concrete outcome the call raises to its caller instead of
returning the sentinel, falsifying "never raises … whenever the deployer
executable cannot be located or started". -/
theorem C5_counterexample :
    run_sc64_command (strL "/tmp/sc64deployer") [strL "list"]
        (SubprocessOutcome.startError
          (strL "PermissionError: Permission denied")) =
      Except.error (strL "PermissionError: Permission denied") ∧
    raisesToCaller (run_sc64_command (strL "/tmp/sc64deployer") [strL "list"]
        (SubprocessOutcome.startError
          (strL "PermissionError: Permission denied"))) = true :=
  ⟨rfl, rfl⟩

/-- Amended claim C5: `run_sc64_command` catches exactly
`FileNotFoundError` — when the deployer executable cannot be located it does
not raise and returns the sentinel exit code -1 (non-zero) with an
explanatory message in place of stderr; a completed subprocess result is
passed through; any other start-failure exception propagates to the
caller. -/
theorem C5_run_sc64_command :
    ∀ (deployerPath : Str) (args : List Str),
      run_sc64_command deployerPath args .fileNotFound =
        .ok (-1, [], strL "Error: sc64deployer not found at " ++
          deployerPath) ∧
      raisesToCaller (run_sc64_command deployerPath args .fileNotFound) =
        false ∧
      (-1 : Int) ≠ 0 ∧
      (∀ c o e, run_sc64_command deployerPath args (.completed c o e) =
        .ok (c, o, e)) ∧
      (∀ msg, run_sc64_command deployerPath args (.startError msg) =
        .error msg) := by
  intro deployerPath args
  refine ⟨rfl, rfl, by omega, fun c o e => rfl, fun msg => rfl⟩

/-- Witness for C5 at a concrete deployer path and argument list. -/
theorem C5_run_sc64_command_witness :
    run_sc64_command (strL "/tmp/sc64deployer") [strL "list"] .fileNotFound =
      .ok (-1, [], strL "Error: sc64deployer not found at " ++
        strL "/tmp/sc64deployer") ∧
    raisesToCaller (run_sc64_command (strL "/tmp/sc64deployer") [strL "list"]
      .fileNotFound) = false :=
  ⟨(C5_run_sc64_command (strL "/tmp/sc64deployer") [strL "list"]).1,
   (C5_run_sc64_command (strL "/tmp/sc64deployer") [strL "list"]).2.1⟩

lemma mem_insertSortedDedup {x y : Int} : ∀ {l : List Int},
    y ∈ insertSortedDedup x l ↔ y = x ∨ y ∈ l
  | [] => by simp [insertSortedDedup]
  | z :: zs => by
    by_cases h1 : x < z
    · rw [insertSortedDedup, if_pos h1]
      simp only [List.mem_cons]
    · by_cases h2 : x = z
      · rw [insertSortedDedup, if_neg h1, if_pos h2]
        subst h2
        simp only [List.mem_cons]
        tauto
      · rw [insertSortedDedup, if_neg h1, if_neg h2]
        simp only [List.mem_cons, mem_insertSortedDedup (l := zs)]
        tauto

lemma pairwise_insertSortedDedup {x : Int} : ∀ {l : List Int},
    List.Pairwise (fun a b : Int => a < b) l →
    List.Pairwise (fun a b : Int => a < b) (insertSortedDedup x l)
  | [], _ => by simp [insertSortedDedup]
  | z :: zs, h => by
    rcases List.pairwise_cons.mp h with ⟨hz, hzs⟩
    by_cases h1 : x < z
    · rw [insertSortedDedup, if_pos h1]
      refine List.pairwise_cons.mpr ⟨?_, h⟩
      intro b hb
      rcases List.mem_cons.mp hb with hb | hb
      · exact hb ▸ h1
      · exact h1.trans (hz b hb)
    · by_cases h2 : x = z
      · rw [insertSortedDedup, if_neg h1, if_pos h2]
        exact h
      · have hzx : z < x := by omega
        rw [insertSortedDedup, if_neg h1, if_neg h2]
        refine List.pairwise_cons.mpr ⟨?_, pairwise_insertSortedDedup hzs⟩
        intro b hb
        rcases mem_insertSortedDedup.mp hb with hb | hb
        · exact hb ▸ hzx
        · exact hz b hb

lemma sortedDedup_pairwise : ∀ l : List Int,
    List.Pairwise (fun a b : Int => a < b) (sortedDedup l)
  | [] => List.Pairwise.nil
  | x :: xs => pairwise_insertSortedDedup (sortedDedup_pairwise xs)

lemma mem_sortedDedup {x : Int} : ∀ {l : List Int}, x ∈ sortedDedup l ↔ x ∈ l
  | [] => Iff.rfl
  | y :: ys => by
    simp only [sortedDedup, List.foldr_cons, List.mem_cons]
    rw [show List.foldr insertSortedDedup [] ys = sortedDedup ys from rfl]
    rw [mem_insertSortedDedup, mem_sortedDedup (l := ys)]

/-- Claim C6: `get_multi_choice` maps "0" to the empty selection, "all" to
the full range 1..max, and a comma-separated list of integers to the sorted
duplicate-free list of those integers lying in [1, max], skipping
out-of-range tokens while returning the remaining valid ones; the claim's
concrete examples hold. -/
theorem C6_get_multi_choice :
    (∀ maxVal : Nat, get_multi_choice_line maxVal (strL "0") = some []) ∧
    (∀ maxVal : Nat, get_multi_choice_line maxVal (strL "all") =
      some ((List.range maxVal).map (fun i => (i : Int) + 1))) ∧
    (∀ (maxVal : Nat) (line : Str) (vals : List Int),
      pyLower (pyStrip line) ≠ strL "0" →
      pyLower (pyStrip line) ≠ strL "all" →
      (splitOnChar ',' (pyLower (pyStrip line))).mapM
          (fun p => pyInt (pyStrip p)) = some vals →
      ∃ sel, get_multi_choice_line maxVal line = some sel ∧
        List.Pairwise (fun a b : Int => a < b) sel ∧
        (∀ x : Int, x ∈ sel ↔ x ∈ vals ∧ 1 ≤ x ∧ x ≤ (maxVal : Int))) ∧
    get_multi_choice_line 5 (strL "1,3,5") = some [1, 3, 5] ∧
    get_multi_choice_line 3 (strL "all") = some [1, 2, 3] ∧
    get_multi_choice_line 5 (strL "1,9,3") = some [1, 3] := by
  refine ⟨fun maxVal => ?_, fun maxVal => ?_, ?_, by decide, by decide, by decide⟩
  · rfl
  · rfl
  · intro maxVal line vals h0 hall hvals
    refine ⟨sortedDedup (vals.filter
      (fun v => decide (1 ≤ v) && decide (v ≤ (maxVal : Int)))), ?_, ?_, ?_⟩
    · simp only [get_multi_choice_line, if_neg h0, if_neg hall, hvals]
    · exact sortedDedup_pairwise _
    · intro x
      rw [mem_sortedDedup, List.mem_filter]
      simp

/-- Witness for C6 at the concrete accepted line "1,9,3" with max 5. -/
theorem C6_get_multi_choice_witness :
    ∃ sel, get_multi_choice_line 5 (strL "1,9,3") = some sel ∧
      List.Pairwise (fun a b : Int => a < b) sel ∧
      (∀ x : Int, x ∈ sel ↔ x ∈ [(1 : Int), 9, 3] ∧ 1 ≤ x ∧ x ≤ (5 : Int)) :=
  C6_get_multi_choice.2.2.1 5 (strL "1,9,3") [1, 9, 3]
    (by decide) (by decide) (by decide)

lemma strLe_total : ∀ a b : Str, strLe a b = true ∨ strLe b a = true
  | [], _ => Or.inl rfl
  | _ :: _, [] => Or.inr rfl
  | a :: as, b :: bs => by
    by_cases h : a.toNat = b.toNat
    · rcases strLe_total as bs with hl | hl
      · exact Or.inl (by rw [strLe, if_pos h]; exact hl)
      · exact Or.inr (by rw [strLe, if_pos h.symm]; exact hl)
    · by_cases hlt : a.toNat < b.toNat
      · exact Or.inl (by rw [strLe, if_neg h]; simpa using hlt)
      · refine Or.inr ?_
        rw [strLe, if_neg (fun e => h e.symm)]
        simp only [decide_eq_true_eq]
        omega

lemma strLe_trans : ∀ a b c : Str,
    strLe a b = true → strLe b c = true → strLe a c = true
  | [], _, _, _, _ => rfl
  | _ :: _, [], _, h, _ => by rw [strLe] at h; exact absurd h (by simp)
  | _ :: _, _ :: _, [], _, h => by rw [strLe] at h; exact absurd h (by simp)
  | a :: as, b :: bs, c :: cs, h1, h2 => by
    rw [strLe] at h1 h2 ⊢
    by_cases hab : a.toNat = b.toNat
    · rw [if_pos hab] at h1
      by_cases hbc : b.toNat = c.toNat
      · rw [if_pos hbc] at h2
        rw [if_pos (hab.trans hbc)]
        exact strLe_trans as bs cs h1 h2
      · rw [if_neg hbc] at h2
        simp only [decide_eq_true_eq] at h2
        rw [if_neg (by omega)]
        simp only [decide_eq_true_eq]
        omega
    · rw [if_neg hab] at h1
      simp only [decide_eq_true_eq] at h1
      by_cases hbc : b.toNat = c.toNat
      · rw [if_neg (by omega)]
        simp only [decide_eq_true_eq]
        omega
      · rw [if_neg hbc] at h2
        simp only [decide_eq_true_eq] at h2
        rw [if_neg (by omega)]
        simp only [decide_eq_true_eq]
        omega

instance : IsTotal Str romLe := ⟨fun a b => strLe_total (pyLower a) (pyLower b)⟩

instance : IsTrans Str romLe :=
  ⟨fun a b c => strLe_trans (pyLower a) (pyLower b) (pyLower c)⟩

/-- Claim C7: `list_local_roms` returns exactly the files of the directory
tree (nested subdirectories included) whose extension is a ROM extension
case-insensitively, sorted case-insensitively by filename; a missing ROM
directory yields `[]`; in the concrete example the ".txt" and ".sra" files
are excluded. -/
theorem C7_list_local_roms :
    (∀ cs : List FsNode,
      (list_local_roms (some cs)).Perm
        ((collectFilesList cs).filter isRomFile) ∧
      List.Pairwise romLe (list_local_roms (some cs))) ∧
    list_local_roms none = [] ∧
    list_local_roms (some
      [FsNode.file (strL "b.TXT"), FsNode.file (strL "Mario.Z64"),
       FsNode.dir (strL "sub")
         [FsNode.file (strL "zelda.n64"), FsNode.file (strL "save.sra")],
       FsNode.file (strL "apple.v64")]) =
      [strL "apple.v64", strL "Mario.Z64", strL "zelda.n64"] := by
  refine ⟨?_, rfl, by decide⟩
  intro cs
  exact ⟨List.perm_insertionSort romLe _, List.sorted_insertionSort romLe _⟩

lemma uploadLoop_eq (roms : List Str) (ok : Nat → Bool) :
    ∀ (l : List Nat) (cnt : Nat),
    uploadLoop roms ok l cnt =
      (l.map (fun idx => UpEvent.attempt (roms.getD (idx - 1) []) (ok idx)),
       cnt + l.countP ok)
  | [], cnt => by simp [uploadLoop]
  | idx :: rest, cnt => by
    simp only [uploadLoop, uploadLoop_eq roms ok rest, List.map_cons,
      List.countP_cons]
    by_cases h : ok idx = true <;> simp [h] <;> omega

/-- Counterexample to claim C8 as stated: in `cmd_quick_upload`, with two
selected ROMs of which the first fails to upload, the loop continues to the
second item but the trace contains no success-count summary event, so the
claimed "final summary … is printed" is false for the quick upload
command. -/
theorem C8_counterexample :
    cmd_quick_upload_batch [strL "a.z64", strL "b.z64"] [1, 2]
        (fun i => decide (i = 2)) =
      [UpEvent.attempt (strL "a.z64") false,
       UpEvent.attempt (strL "b.z64") true] ∧
    hasSummary (cmd_quick_upload_batch [strL "a.z64", strL "b.z64"] [1, 2]
        (fun i => decide (i = 2))) = false := by
  decide

/-- Amended claim C8: in both `cmd_upload` and `cmd_quick_upload` a failed
upload does not abort the batch — every selected index is attempted, in
order, whatever the individual results — and `cmd_upload` ends with the
success-count-of-total summary, while `cmd_quick_upload` prints no
summary. -/
theorem C8_upload_batches :
    ∀ (roms : List Str) (choices : List Nat) (ok : Nat → Bool),
      cmd_upload_batch roms choices ok =
        choices.map (fun idx =>
          UpEvent.attempt (roms.getD (idx - 1) []) (ok idx))
          ++ [UpEvent.summary (choices.countP ok) choices.length] ∧
      cmd_quick_upload_batch roms choices ok =
        choices.map (fun idx =>
          UpEvent.attempt (roms.getD (idx - 1) []) (ok idx)) ∧
      hasSummary (cmd_quick_upload_batch roms choices ok) = false := by
  intro roms choices ok
  refine ⟨?_, ?_, ?_⟩
  · simp [cmd_upload_batch, uploadLoop_eq]
  · simp [cmd_quick_upload_batch, uploadLoop_eq]
  · simp only [cmd_quick_upload_batch, uploadLoop_eq, hasSummary, List.any_map]
    rw [List.any_eq_false]
    intro e he
    simp [Function.comp] at he ⊢
    rcases he with ⟨idx, _, hh⟩
    rw [← hh]

lemma lastIdxOf_eq_none {c : Char} : ∀ {s : Str}, lastIdxOf c s = none ↔ c ∉ s
  | [] => by simp [lastIdxOf]
  | x :: xs => by
    rw [lastIdxOf]
    rcases hx : lastIdxOf c xs with _ | j
    · have hxs : c ∉ xs := lastIdxOf_eq_none.mp hx
      by_cases hxc : x = c
      · subst hxc
        simp
      · have hcx : ¬c = x := fun e => hxc e.symm
        simp only [List.mem_cons, not_or]
        simp [hxc, hxs, hcx]
    · have hxs : c ∈ xs := by
        by_contra hcc
        rw [lastIdxOf_eq_none.mpr hcc] at hx
        exact Option.noConfusion hx
      simp [hxs]

lemma lastIdxOf_lt_length {c : Char} : ∀ {s : Str} {i : Nat},
    lastIdxOf c s = some i → i < s.length
  | [], i, h => Option.noConfusion h
  | x :: xs, i, h => by
    rw [lastIdxOf] at h
    rcases hx : lastIdxOf c xs with _ | j
    · rw [hx] at h
      by_cases hxc : x = c
      · rw [if_pos hxc] at h
        cases h
        simp
      · rw [if_neg hxc] at h
        exact Option.noConfusion h
    · rw [hx] at h
      cases h
      have := lastIdxOf_lt_length (s := xs) hx
      simp only [List.length_cons]
      omega

lemma lastIdxOf_append_singleton (c x : Char) : ∀ s : Str,
    lastIdxOf c (s ++ [x]) =
      if x = c then some s.length else lastIdxOf c s
  | [] => by by_cases h : x = c <;> simp [lastIdxOf, h]
  | y :: ys => by
    rw [List.cons_append, lastIdxOf, lastIdxOf_append_singleton c x ys]
    by_cases h : x = c
    · simp [h]
    · rw [if_neg h, if_neg h]
      rfl

lemma rsplitFirst_eq_truncate (c : Char) (s : Str) :
    rsplitFirst c s =
      (match lastIdxOf c s with
       | some i => s.take i
       | none => s) := by
  induction s using List.reverseRecOn with
  | nil => rfl
  | append_singleton s x ih =>
    rw [lastIdxOf_append_singleton]
    by_cases hx : x = c
    · subst hx
      rw [if_pos rfl]
      unfold rsplitFirst
      rw [if_pos (by simp)]
      simp
    · rw [if_neg hx]
      by_cases hc : c ∈ s
      · rcases hi : lastIdxOf c s with _ | i
        · exact absurd (lastIdxOf_eq_none.mp hi) (by simpa using hc)
        · have hlt : i < s.length := lastIdxOf_lt_length hi
          unfold rsplitFirst
          rw [if_pos (by simp [hc])]
          have hdw : List.dropWhile (fun y => decide (y ≠ c)) (x :: s.reverse) =
              List.dropWhile (fun y => decide (y ≠ c)) s.reverse := by
            rw [List.dropWhile_cons_of_pos (by simpa using hx)]
          rw [List.reverse_append]
          simp only [List.reverse_singleton, List.singleton_append, hdw]
          have hold := ih
          unfold rsplitFirst at hold
          rw [if_pos (by simpa using hc), hi] at hold
          rw [hold, List.take_append_of_le_length (by omega)]
      · rw [lastIdxOf_eq_none.mpr hc]
        unfold rsplitFirst
        have hcx : ¬c = x := fun e => hx e.symm
        rw [if_neg (by simp [hc, hcx])]

/-- Claim C9: in the SD-card browser, entering a directory pushes the current
path onto the history and sets the current path to the entered directory;
navigating to the parent pops the most recent history entry when the history
is non-empty and otherwise truncates the current path at the last "/",
yielding "/" when no deeper component remains; the concrete navigation
examples hold. -/
theorem C9_browse_sd :
    (∀ (s : BrowseState) (item : SdEntry),
      (browseEnterDir s item).history = s.currentPath :: s.history ∧
      (browseEnterDir s item).currentPath =
        (if s.currentPath = strL "/" then item.path
         else pyRstripChar '/' s.currentPath ++ '/' :: item.name)) ∧
    (∀ (p h : Str) (t : List Str),
      browseGoParent ⟨p, h :: t⟩ = ⟨h, t⟩) ∧
    (∀ p : Str, browseGoParent ⟨p, []⟩ = ⟨parentByTruncate p, []⟩) ∧
    browseEnterDir ⟨strL "/", []⟩
        ⟨strL "menu", strL "dir", strL "----", strL "/menu"⟩ =
      ⟨strL "/menu", [strL "/"]⟩ ∧
    browseEnterDir ⟨strL "/menu", [strL "/"]⟩
        ⟨strL "sub", strL "dir", strL "----", strL "/menu/sub"⟩ =
      ⟨strL "/menu/sub", [strL "/menu", strL "/"]⟩ ∧
    browseGoParent ⟨strL "/menu/sub", [strL "/menu", strL "/"]⟩ =
      ⟨strL "/menu", [strL "/"]⟩ ∧
    browseGoParent ⟨strL "/menu/sub", []⟩ = ⟨strL "/menu", []⟩ ∧
    browseGoParent ⟨strL "/menu", []⟩ = ⟨strL "/", []⟩ := by
  refine ⟨fun s item => ⟨rfl, rfl⟩, fun p h t => rfl, ?_,
    by decide, by decide, by decide, by decide, by decide⟩
  intro p
  unfold browseGoParent parentByTruncate
  rw [rsplitFirst_eq_truncate]

lemma cmd_update_menu_shape (env : MenuEnv) :
    cmd_update_menu_run env = [] ∨
    (env.backupOk = false ∧
      cmd_update_menu_run env = [MenuEvent.backup false]) ∨
    (env.backupOk = true ∧
      cmd_update_menu_run env =
        [MenuEvent.backup true, MenuEvent.upload env.uploadOk]) := by
  unfold cmd_update_menu_run
  split
  · exact Or.inl rfl
  split
  · exact Or.inl rfl
  split
  · exact Or.inl rfl
  rcases hsel : selectMenuLoop env.menuVersions
      ((env.menuVersions.length + 9 - 1) / 9) env.inputs 0 with _ | ⟨sel, rest⟩
  · exact Or.inl rfl
  · rcases rest with _ | ⟨confirm, tl⟩
    · exact Or.inl rfl
    · by_cases hy : pyLower (pyStrip confirm) = strL "y"
      · by_cases hbk : env.backupOk = true
        · refine Or.inr (Or.inr ⟨hbk, ?_⟩)
          simp [hy, hbk]
        · refine Or.inr (Or.inl ⟨by simpa using hbk, ?_⟩)
          simp [hy, hbk]
      · refine Or.inl ?_
        simp [hy]

/-- Claim C1: in every execution of `cmd_update_menu`, if the backup step
fails the upload step never appears in the trace (the remote menu is
untouched), and any upload event in the trace is strictly preceded by a
successful backup event. -/
theorem C1_cmd_update_menu :
    ∀ env : MenuEnv,
      (env.backupOk = false →
        ∀ r, MenuEvent.upload r ∉ cmd_update_menu_run env) ∧
      (∀ i r, (cmd_update_menu_run env).get? i = some (MenuEvent.upload r) →
        ∃ j, j < i ∧
          (cmd_update_menu_run env).get? j = some (MenuEvent.backup true)) := by
  intro env
  rcases cmd_update_menu_shape env with h | ⟨hb, h⟩ | ⟨hb, h⟩
  · rw [h]
    exact ⟨fun _ r hr => (List.not_mem_nil _ hr), fun i r hir => by
      simp [List.get?] at hir⟩
  · rw [h]
    refine ⟨fun _ r hr => by simp at hr, fun i r hir => ?_⟩
    exfalso
    match i with
    | 0 => simp [List.get?] at hir
    | n + 1 => simp [List.get?] at hir
  · rw [h]
    refine ⟨fun hc _ _ => by rw [hb] at hc; exact Bool.noConfusion hc,
      fun i r hir => ?_⟩
    match i with
    | 0 => simp [List.get?] at hir
    | 1 => exact ⟨0, by omega, rfl⟩
    | n + 2 => simp [List.get?] at hir

/-- Witness for C1: a concrete run that selects the only menu version,
confirms, and then fails the backup — the trace contains no upload event. -/
theorem C1_cmd_update_menu_witness :
    MenuEvent.upload true ∉ cmd_update_menu_run
      { deviceConnected := true, sdAccessible := true,
        menuVersions := [strL "menu_v1.n64"],
        inputs := [strL "1", strL "y"],
        backupOk := false, uploadOk := true } :=
  (C1_cmd_update_menu
    { deviceConnected := true, sdAccessible := true,
      menuVersions := [strL "menu_v1.n64"],
      inputs := [strL "1", strL "y"],
      backupOk := false, uploadOk := true }).1 rfl true

end SummerBreeze
